import Mathlib

/-!
Shallow embedding of the limbo sources (the SucreRouge/limbo repository)
and proofs about them.

Components embedded here:
* `src/limbo/term.h`   — symbols, the interning term factory (`CreateTerm`),
  the name bit of a term id;
* `src/limbo/literal.h` / `limbo/lit.h` — packed literals with `flip`,
  `Valid`, `Complementary`, `Subsumes`, `ProperlySubsumes`;
* `src/limbo/clause.h` — `Clause::Normalize`, the clause constructor and
  `Clause::operator==`;
* `src/vector.c`, `src/set.c` — the C vector and the sorted-vector set;
* `src/clause.c` — `ground_clauses`;
* `src/query.c` — the query data type, `query_ennf_h`, `query_simplify`.

Machine integers are modelled as `Nat`; term ids are 31-bit in the source
and all id arithmetic here stays far below that bound, so no wrap-around
occurs and plain `Nat` is faithful.
-/

namespace Limbo

/-! ### Terms as ids, literals (src/limbo/term.h, src/limbo/literal.h)

A `Term` is an integer id; `Term::name()` is `(id_ & 1) == 1` (term.h line
197), no dereference.  A `Literal` packs `(sign, lhs, rhs)` into a 64-bit
word; equality of literals is field-wise equality of sign, lhs and rhs,
which coincides with equality of the packed word, so we model the literal
as the triple.  `flip` rebuilds the literal with the toggled sign; for the
function/name literals on which `Valid`/`Complementary`/`Subsumes` are
defined, the constructor's canonicalisation keeps `lhs`/`rhs` unchanged, so
`flip` only toggles the sign. -/

/-- `Term::name()` from term.h: the low bit of the term id. -/
def termName (t : Nat) : Bool := t % 2 == 1

/-- A literal `lhs ∘ rhs` with `∘ ∈ {=, ≠}`; `pos = true` means `=`.
`lhs` and `rhs` are term ids. -/
structure Lit where
  pos : Bool
  lhs : Nat
  rhs : Nat
deriving DecidableEq, Repr

namespace Lit

/-- The null literal `Lit()`: the all-zero word. -/
def null : Lit := ⟨false, 0, 0⟩

/-- `Literal::flip()`: toggle the sign. -/
def flip (a : Lit) : Lit := ⟨!a.pos, a.lhs, a.rhs⟩

/-- `Literal::Valid(a, b)` from literal.h lines 88-93: `a`, `b` are jointly
valid iff they are `(t = u)`/`(t ≠ u)` on identical sides, or both are
inequalities `(t ≠ n1)`, `(t ≠ n2)` with distinct names. -/
def Valid (a b : Lit) : Bool :=
  (a.lhs == b.lhs && a.pos != b.pos && a.rhs == b.rhs) ||
  (a.lhs == b.lhs && !a.pos && !b.pos &&
    termName a.rhs && termName b.rhs && a.rhs != b.rhs)

/-- `Literal::Complementary(a, b)` from literal.h lines 99-104: opposite
signs on identical sides, or both positive `(t = n1)`, `(t = n2)` with
distinct names. -/
def Complementary (a b : Lit) : Bool :=
  (a.lhs == b.lhs && a.pos != b.pos && a.rhs == b.rhs) ||
  (a.lhs == b.lhs && a.pos && b.pos &&
    termName a.rhs && termName b.rhs && a.rhs != b.rhs)

/-- `Literal::ProperlySubsumes(a, b)`: `a` is `(t = n1)` and `b` is
`(t ≠ n2)` with distinct names `n1`, `n2`. -/
def ProperlySubsumes (a b : Lit) : Bool :=
  a.lhs == b.lhs && a.pos && !b.pos &&
    termName a.rhs && termName b.rhs && a.rhs != b.rhs

/-- `Literal::Subsumes(a, b)`: `a == b` or `a` properly subsumes `b`. -/
def Subsumes (a b : Lit) : Bool := a == b || ProperlySubsumes a b

theorem Valid_symm {a b : Lit} (h : Valid a b = true) : Valid b a = true := by
  obtain ⟨ap, al, ar⟩ := a
  obtain ⟨bp, bl, br⟩ := b
  cases ap <;> cases bp <;> simp_all [Valid, termName] <;> tauto

theorem Valid_irrefl (a : Lit) : Valid a a = false := by
  simp [Valid]

theorem Subsumes_refl (a : Lit) : Subsumes a a = true := by
  simp [Subsumes]

/-- If `x` subsumes `k`, any literal jointly valid with `x` is jointly
valid with `k`. -/
theorem Valid_of_Subsumes {x k z : Lit} (hs : Subsumes x k = true)
    (hv : Valid x z = true) : Valid k z = true := by
  simp only [Subsumes, Bool.or_eq_true, beq_iff_eq] at hs
  rcases hs with rfl | hps
  · exact hv
  · obtain ⟨xp, xl, xr⟩ := x
    obtain ⟨kp, kl, kr⟩ := k
    obtain ⟨zp, zl, zr⟩ := z
    simp only [ProperlySubsumes, Bool.and_eq_true, beq_iff_eq,
      bne_iff_ne, ne_eq, Bool.not_eq_true'] at hps
    obtain ⟨⟨⟨⟨⟨hl, hxp⟩, hkp⟩, hxn⟩, hkn⟩, hne⟩ := hps
    subst hxp hkp hl
    cases zp
    · simp only [Valid, Bool.and_eq_true, Bool.or_eq_true, beq_iff_eq,
        bne_iff_ne, ne_eq, Bool.not_eq_true'] at hv ⊢
      simp_all
      omega
    · simp [Valid] at hv
end Lit

/-! ### `Clause::operator==` (src/limbo/clause.h lines 69-83)

A clause is its contiguous literal array.  The source's `operator==` first
compares sizes; its literal-matching double loop jumps to the `next` label
when a match is found, but control reaches `next` as well when the inner
loop runs out without a match — there is no `return false` — so the loop
has no effect on the result and the function returns `true` whenever the
sizes agree. -/

/-- `Clause::operator==`: only the size comparison is observable. -/
def clauseEqC (c d : List Lit) : Bool := c.length == d.length

/-- C2 (code bug): `Clause::operator==` on the two distinct singleton
clauses `{(2 = 3)}` and `{(2 = 5)}` returns `true` although their literal
sets differ, contradicting set-equality semantics. -/
theorem clauseEqC_equal_sizes_compare_equal :
    clauseEqC [Lit.mk true 2 3] [Lit.mk true 2 5] = true ∧
    (Lit.mk true 2 3) ≠ (Lit.mk true 2 5) := by
  constructor
  · rfl
  · decide

/-! ### C8: `Complementary(a, b) → Valid(a.flip(), b.flip())` -/

/-- C8: for all literals `a`, `b` (in particular all primitive ones),
`Literal::Complementary(a, b)` implies
`Literal::Valid(a.flip(), b.flip())`. -/
theorem Complementary_implies_Valid_flip (a b : Lit)
    (h : Lit.Complementary a b = true) :
    Lit.Valid a.flip b.flip = true := by
  obtain ⟨ap, al, ar⟩ := a
  obtain ⟨bp, bl, br⟩ := b
  cases ap <;> cases bp <;>
    simp_all [Lit.Complementary, Lit.Valid, Lit.flip, termName]

/-- Witness for C8 at the concrete primitive pair `(2 = 3)`, `(2 = 5)`. -/
theorem Complementary_implies_Valid_flip_witness :
    Lit.Complementary (Lit.mk true 2 3) (Lit.mk true 2 5) = true ∧
    Lit.Valid (Lit.flip (Lit.mk true 2 3)) (Lit.flip (Lit.mk true 2 5)) = true :=
  ⟨by decide, Complementary_implies_Valid_flip _ _ (by decide)⟩

/-! ### The C vector (src/vector.c)

A `vector_t` owns a heap array of `const void *` together with its size; we
model the owned array as the list of its elements.  `vector_sub` returns a
non-owning view aliasing the source array: the source computes the view's
start pointer as `src->array + sizeof(void *) * from`.  Since `src->array`
has element type `const void *`, C pointer arithmetic already scales by the
element size, so the view starts at element index `sizeof(void *) * from`
of the source array, not at index `from`.  We model the view by its base
list, start index and size. -/

/-- The value of `sizeof(void *)` on the usual LP64 platform. -/
def sizeofVoidPtr : Nat := 8

/-- An owned `vector_t`; `capacity` is not observable through the accessors
modelled here and is omitted. -/
structure CVec (α : Type) where
  data : List α
deriving Repr, DecidableEq

/-- A non-owning view as returned by `vector_sub` (capacity = -1): a base
array, the element index its `array` pointer points at, and its size. -/
structure CVecView (α : Type) where
  base : List α
  start : Nat
  size : Nat
deriving Repr, DecidableEq

/-- `vector_sub(src, from, to)` from vector.c lines 50-59: size is
`to - from`, and the view's pointer is `src->array + sizeof(void *) * from`,
i.e. element index `sizeofVoidPtr * from` of the source array. -/
def vector_sub {α : Type} (src : CVec α) (frm upto : Nat) : CVecView α :=
  ⟨src.data, sizeofVoidPtr * frm, upto - frm⟩

/-- `vector_get` on an owned vector: `vec->array[index]` (in-range reads
return the element; an out-of-range read is undefined in C and modelled by
the default value). -/
def vector_get {α : Type} [Inhabited α] (vec : CVec α) (index : Nat) : α :=
  vec.data.getD index default

/-- `vector_get` on a view: reads `base[start + index]`. -/
def vectorViewGet {α : Type} [Inhabited α] (v : CVecView α) (index : Nat) : α :=
  v.base.getD (v.start + index) default

/-- C10 (code bug): on the 9-element vector `[0,…,8]`, the element 0 of the
view `vector_sub(v, 1, 2)` is `v[8]` (because the start offset is scaled by
`sizeof(void *) = 8`), not `v[1]` as the sub-vector contract states; the
view's size is nevertheless `to - from = 1`. -/
theorem vector_sub_offset_scaled :
    vectorViewGet (vector_sub (CVec.mk [0, 1, 2, 3, 4, 5, 6, 7, 8]) 1 2) 0 = 8 ∧
    vector_get (CVec.mk [0, 1, 2, 3, 4, 5, 6, 7, 8]) 1 = 1 ∧
    (vector_sub (CVec.mk [0, 1, 2, 3, 4, 5, 6, 7, 8]) 1 2).size = 1 := by
  refine ⟨rfl, rfl, rfl⟩

/-! ### The C sorted-vector set (src/set.c)

A `set_t` is a vector kept strictly sorted by a three-way comparator
`compar`.  We model the element type by a linear order; the comparator
branches `cmp < 0`, `cmp == 0`, `cmp > 0` of the source become tests
`a < b`, `a = b`, `b < a`. -/

/-- A `set_t`: the underlying vector of elements (the comparator is the
ambient linear order). -/
structure CSet (α : Type) where
  vec : List α
deriving Repr, DecidableEq

/-- `set_init`: the empty set. -/
def set_init (α : Type) : CSet α := ⟨[]⟩

/-- Strict sortedness of the underlying vector: the representation
invariant of `set_t`. -/
def SetInv {α : Type} [LinearOrder α] (s : CSet α) : Prop :=
  s.vec.Pairwise (fun a b => a < b)

section SetModel

variable {α : Type} [LinearOrder α] [Inhabited α]

/-- The merge loop of `set_union` (set.c lines 40-65): advance over both
sorted vectors, emitting the smaller head, or one copy of both heads when
they compare equal; the two `vector_append_all_range` calls at the end
flush the remainders. -/
def setUnionGo : List α → List α → List α
  | [], r => r
  | x :: l, [] => x :: l
  | x :: l, y :: r =>
    if x < y then x :: setUnionGo l (y :: r)
    else if y < x then y :: setUnionGo (x :: l) r
    else x :: setUnionGo l r
termination_by l r => l.length + r.length

/-- `set_union`. -/
def set_union (l r : CSet α) : CSet α := ⟨setUnionGo l.vec r.vec⟩

/-- The loop of `set_difference` (set.c lines 67-91): for each element of
`l`, skip over smaller elements of `r`; keep the element if it is smaller
than the current element of `r` (or `r` is exhausted), drop it on a
match (the `goto skip` leaves `j` unchanged). -/
def setDiffGo : List α → List α → List α
  | [], _ => []
  | x :: l, [] => x :: setDiffGo l []
  | x :: l, y :: r =>
    if x < y then x :: setDiffGo l (y :: r)
    else if y < x then setDiffGo (x :: l) r
    else setDiffGo l (y :: r)
termination_by l r => l.length + r.length

/-- `set_difference`. -/
def set_difference (l r : CSet α) : CSet α := ⟨setDiffGo l.vec r.vec⟩

/-- The loop of `set_intersection` (set.c lines 93-114). -/
def setInterGo : List α → List α → List α
  | [], _ => []
  | _ :: _, [] => []
  | x :: l, y :: r =>
    if x < y then setInterGo l (y :: r)
    else if y < x then setInterGo (x :: l) r
    else x :: setInterGo l r
termination_by l r => l.length + r.length

/-- `set_intersection`. -/
def set_intersection (l r : CSet α) : CSet α := ⟨setInterGo l.vec r.vec⟩

/-- The binary-search loop of `insert_pos` (set.c lines 152-176), with the
C `int` bounds `lo`, `hi` modelled as integers: returns `-1` when an equal
element is found, the discovered insertion position when
`obj < vec[i]` and (`i == 0` or `vec[i-1] < obj`), and the vector size when
the loop exits. -/
def insertPosGo (vec : List α) (obj : α) (lo hi : Int) : Int :=
  if _h : lo ≤ hi then
    let i : Int := (lo + hi) / 2
    let x : α := vec.getD i.toNat default
    if obj = x then -1
    else if obj < x then
      if i = 0 ∨ ¬ (obj ≤ vec.getD (i - 1).toNat default) then i
      else insertPosGo vec obj lo (i - 1)
    else insertPosGo vec obj (i + 1) hi
  else
    (vec.length : Int)
termination_by (hi + 1 - lo).toNat
decreasing_by
  all_goals simp_wf
  all_goals omega

/-- `insert_pos`. -/
def insert_pos (s : CSet α) (obj : α) : Int :=
  insertPosGo s.vec obj 0 ((s.vec.length : Int) - 1)

/-- The binary-search loop of `search` (set.c lines 133-150): index of an
equal element, or `-1`. -/
def searchGo (vec : List α) (obj : α) (lo hi : Int) : Int :=
  if _h : lo ≤ hi then
    let i : Int := (lo + hi) / 2
    let x : α := vec.getD i.toNat default
    if obj = x then i
    else if obj < x then searchGo vec obj lo (i - 1)
    else searchGo vec obj (i + 1) hi
  else
    -1
termination_by (hi + 1 - lo).toNat
decreasing_by
  all_goals simp_wf
  all_goals omega

/-- `search` (used by `set_remove` and `set_contains`). -/
def setSearch (s : CSet α) (obj : α) : Int :=
  searchGo s.vec obj 0 ((s.vec.length : Int) - 1)

/-- `vector_insert(vec, index, elem)` (vector.c lines 126-138): shift the
tail up by one and write `elem` at `index`. -/
def vector_insert (v : List α) (index : Nat) (elem : α) : List α :=
  v.take index ++ elem :: v.drop index

/-- `vector_remove(vec, index)` (vector.c lines 185-195): shift the tail
down over `index`. -/
def vector_remove (v : List α) (index : Nat) : List α :=
  v.take index ++ v.drop (index + 1)

/-- `set_add` (set.c lines 203-212): insert at `insert_pos` unless an equal
element is present; returns the updated set and the success flag. -/
def set_add (s : CSet α) (elem : α) : CSet α × Bool :=
  let i := insert_pos s elem
  if i ≠ -1 then (⟨vector_insert s.vec i.toNat elem⟩, true) else (s, false)

/-- `set_remove` (set.c lines 214-223). -/
def set_remove (s : CSet α) (elem : α) : CSet α × Bool :=
  let i := setSearch s elem
  if i ≠ -1 then (⟨vector_remove s.vec i.toNat⟩, true) else (s, false)

/-- `set_singleton` (set.c lines 33-38): `set_add` into a fresh set. -/
def set_singleton (elem : α) : CSet α := (set_add (set_init α) elem).1

end SetModel

section SetProofs

variable {α : Type} [LinearOrder α] [Inhabited α]

theorem getD_lt_getD {v : List α} (hs : v.Pairwise (fun a b => a < b))
    {i j : Nat} (hij : i < j) (hj : j < v.length) :
    v.getD i default < v.getD j default := by
  have hi : i < v.length := lt_trans hij hj
  rw [List.getD_eq_getElem v default hi, List.getD_eq_getElem v default hj]
  exact List.pairwise_iff_getElem.mp hs i j hi hj hij

theorem getD_le_getD {v : List α} (hs : v.Pairwise (fun a b => a < b))
    {i j : Nat} (hij : i ≤ j) (hj : j < v.length) :
    v.getD i default ≤ v.getD j default := by
  rcases Nat.lt_or_ge i j with h | h
  · exact le_of_lt (getD_lt_getD hs h hj)
  · have : i = j := le_antisymm hij h
    rw [this]

theorem getD_mem {v : List α} {n : Nat} (h : n < v.length) :
    v.getD n default ∈ v := by
  rw [List.getD_eq_getElem v default h]
  exact List.getElem_mem h

theorem mem_imp_getD {v : List α} {x : α} (h : x ∈ v) :
    ∃ n : Nat, n < v.length ∧ v.getD n default = x := by
  obtain ⟨n, hn, hx⟩ := List.mem_iff_getElem.mp h
  exact ⟨n, hn, by rw [List.getD_eq_getElem v default hn, hx]⟩

/-- Correctness of the `insert_pos` binary search on a strictly sorted
vector, by functional induction along the loop, carrying the loop
invariants: everything left of `lo` is `< obj`; once `hi` has moved below
`size - 1`, `obj ≤ vec[hi]`; and any element equal to `obj` lies within
`[lo, hi]`. -/
theorem insertPosGo_spec (vec : List α) (obj : α)
    (hs : vec.Pairwise (fun a b => a < b)) :
    ∀ lo hi : Int,
      0 ≤ lo → lo ≤ hi + 1 → hi < (vec.length : Int) →
      (∀ k : Nat, (k : Int) < lo → k < vec.length → vec.getD k default < obj) →
      (hi < (vec.length : Int) - 1 → 0 ≤ hi ∧ obj ≤ vec.getD hi.toNat default) →
      (∀ k : Nat, k < vec.length → vec.getD k default = obj →
        lo ≤ (k : Int) ∧ (k : Int) ≤ hi) →
      ((obj ∈ vec → insertPosGo vec obj lo hi = -1) ∧
        (obj ∉ vec →
          0 ≤ insertPosGo vec obj lo hi ∧
          insertPosGo vec obj lo hi ≤ (vec.length : Int) ∧
          (∀ k : Nat, (k : Int) < insertPosGo vec obj lo hi → k < vec.length →
            vec.getD k default < obj) ∧
          (∀ k : Nat, insertPosGo vec obj lo hi ≤ (k : Int) → k < vec.length →
            obj < vec.getD k default))) := by
  intro lo hi
  induction lo, hi using insertPosGo.induct vec obj with
  | case1 lo hi hle i x hx =>
    intro h0 h1 h2 hA hB hC
    have hx' : obj = vec.getD ((lo + hi) / 2).toNat default := hx
    have hm : ((lo + hi) / 2).toNat < vec.length := by omega
    have hmem : obj ∈ vec := hx' ▸ getD_mem hm
    have hres : insertPosGo vec obj lo hi = -1 := by
      rw [insertPosGo]
      simp only [dif_pos hle]
      rw [if_pos hx']
    exact ⟨fun _ => hres, fun hnot => absurd hmem hnot⟩
  | case2 lo hi hle i x hne0 hlt0 hcond0 =>
    intro h0 h1 h2 hA hB hC
    have hne : ¬ obj = vec.getD ((lo + hi) / 2).toNat default := hne0
    have hlt : obj < vec.getD ((lo + hi) / 2).toNat default := hlt0
    have hcond : (lo + hi) / 2 = 0 ∨
        ¬ obj ≤ vec.getD ((lo + hi) / 2 - 1).toNat default := hcond0
    have him : 0 ≤ (lo + hi) / 2 ∧ lo ≤ (lo + hi) / 2 ∧ (lo + hi) / 2 ≤ hi := by omega
    have hm : ((lo + hi) / 2).toNat < vec.length := by omega
    have hmi : (((lo + hi) / 2).toNat : Int) = (lo + hi) / 2 := by omega
    have hres : insertPosGo vec obj lo hi = (lo + hi) / 2 := by
      rw [insertPosGo]
      simp only [dif_pos hle]
      rw [if_neg hne, if_pos hlt, if_pos hcond]
    -- no element equals obj
    have hnomem : obj ∉ vec := by
      intro hmem
      obtain ⟨k, hk, hkv⟩ := mem_imp_getD hmem
      obtain ⟨hklo, hkhi⟩ := hC k hk hkv
      rcases hcond with hi0 | hgt
      · -- i = 0, hence lo = 0 and every index is ≥ i
        rcases Nat.eq_zero_or_pos k with rfl | hkpos
        · rw [hi0] at hlt
          simp only [Int.toNat_zero] at hlt
          exact absurd hkv (ne_of_gt hlt)
        · have hv0 : vec.getD ((lo + hi) / 2).toNat default < vec.getD k default := by
            apply getD_lt_getD hs _ hk
            omega
          rw [hkv] at hv0
          exact absurd hv0 (not_lt_of_lt hlt)
      · -- vec[i-1] < obj
        have hgt' : vec.getD ((lo + hi) / 2 - 1).toNat default < obj := lt_of_not_le hgt
        rcases lt_trichotomy (k : Int) ((lo + hi) / 2) with hki | hki | hki
        · have : vec.getD k default ≤ vec.getD ((lo + hi) / 2 - 1).toNat default := by
            apply getD_le_getD hs _ (by omega)
            omega
          rw [hkv] at this
          exact absurd (lt_of_le_of_lt this hgt') (lt_irrefl obj)
        · apply hne
          rw [← hkv]
          congr 1
          omega
        · have : vec.getD ((lo + hi) / 2).toNat default < vec.getD k default := by
            apply getD_lt_getD hs _ hk
            omega
          rw [hkv] at this
          exact absurd (lt_trans hlt this) (lt_irrefl obj)
    refine ⟨fun hmem => absurd hmem hnomem, fun _ => ?_⟩
    rw [hres]
    refine ⟨by omega, by omega, ?_, ?_⟩
    · intro k hk hklen
      rcases hcond with hi0 | hgt
      · omega
      · have hgt' : vec.getD ((lo + hi) / 2 - 1).toNat default < obj := lt_of_not_le hgt
        calc vec.getD k default ≤ vec.getD ((lo + hi) / 2 - 1).toNat default := by
              apply getD_le_getD hs _ (by omega)
              omega
          _ < obj := hgt'
    · intro k hk hklen
      calc obj < vec.getD ((lo + hi) / 2).toNat default := hlt
        _ ≤ vec.getD k default := by
              apply getD_le_getD hs _ hklen
              omega
  | case3 lo hi hle i x hne0 hlt0 hcond0 ih =>
    intro h0 h1 h2 hA hB hC
    have hne : ¬ obj = vec.getD ((lo + hi) / 2).toNat default := hne0
    have hlt : obj < vec.getD ((lo + hi) / 2).toNat default := hlt0
    have hcond : ¬ ((lo + hi) / 2 = 0 ∨
        ¬ obj ≤ vec.getD ((lo + hi) / 2 - 1).toNat default) := hcond0
    have him : 0 ≤ (lo + hi) / 2 ∧ lo ≤ (lo + hi) / 2 ∧ (lo + hi) / 2 ≤ hi := by omega
    have hm : ((lo + hi) / 2).toNat < vec.length := by omega
    push_neg at hcond
    obtain ⟨hi0, hle'⟩ := hcond
    have hres : insertPosGo vec obj lo hi = insertPosGo vec obj lo ((lo + hi) / 2 - 1) := by
      rw [insertPosGo]
      simp only [dif_pos hle]
      rw [if_neg hne, if_pos hlt, if_neg (by push_neg; exact ⟨hi0, hle'⟩)]
    rw [hres]
    apply ih h0 (by omega) (by omega) hA
    · intro _
      exact ⟨by omega, hle'⟩
    · intro k hk hkv
      obtain ⟨hklo, hkhi⟩ := hC k hk hkv
      refine ⟨hklo, ?_⟩
      by_contra hgt
      push_neg at hgt
      rcases eq_or_lt_of_le (by omega : (lo + hi) / 2 ≤ (k : Int)) with heq | hlt'
      · apply hne
        rw [← hkv]
        congr 1
        omega
      · have : vec.getD ((lo + hi) / 2).toNat default < vec.getD k default := by
          apply getD_lt_getD hs _ hk
          omega
        rw [hkv] at this
        exact absurd (lt_trans hlt this) (lt_irrefl obj)
  | case4 lo hi hle i x hne0 hnlt0 ih =>
    intro h0 h1 h2 hA hB hC
    have hne : ¬ obj = vec.getD ((lo + hi) / 2).toNat default := hne0
    have hnlt : ¬ obj < vec.getD ((lo + hi) / 2).toNat default := hnlt0
    have him : 0 ≤ (lo + hi) / 2 ∧ lo ≤ (lo + hi) / 2 ∧ (lo + hi) / 2 ≤ hi := by omega
    have hm : ((lo + hi) / 2).toNat < vec.length := by omega
    have hxlt : vec.getD ((lo + hi) / 2).toNat default < obj :=
      lt_of_le_of_ne (le_of_not_lt hnlt) (fun hEq => hne hEq.symm)
    have hres : insertPosGo vec obj lo hi = insertPosGo vec obj ((lo + hi) / 2 + 1) hi := by
      rw [insertPosGo]
      simp only [dif_pos hle]
      rw [if_neg hne, if_neg hnlt]
    rw [hres]
    apply ih (by omega) (by omega) h2
    · intro k hk hklen
      have : vec.getD k default ≤ vec.getD ((lo + hi) / 2).toNat default := by
        apply getD_le_getD hs _ hm
        omega
      exact lt_of_le_of_lt this hxlt
    · exact hB
    · intro k hk hkv
      obtain ⟨hklo, hkhi⟩ := hC k hk hkv
      refine ⟨?_, hkhi⟩
      by_contra hclt
      push_neg at hclt
      have : vec.getD k default ≤ vec.getD ((lo + hi) / 2).toNat default := by
        apply getD_le_getD hs _ hm
        omega
      rw [hkv] at this
      exact absurd (lt_of_le_of_lt this hxlt) (lt_irrefl obj)
  | case5 lo hi hnle =>
    intro h0 h1 h2 hA hB hC
    have hres : insertPosGo vec obj lo hi = (vec.length : Int) := by
      rw [insertPosGo]
      simp only [dif_neg hnle]
    have hloq : lo = hi + 1 := by omega
    -- the loop can only run off the high end: hi = length - 1
    have hhi : hi = (vec.length : Int) - 1 := by
      by_contra hne'
      have hlt' : hi < (vec.length : Int) - 1 := by omega
      obtain ⟨hipos, hib⟩ := hB hlt'
      have : vec.getD hi.toNat default < obj := by
        apply hA
        · omega
        · omega
      exact absurd (lt_of_lt_of_le this hib) (lt_irrefl _)
    have hall : ∀ k : Nat, k < vec.length → vec.getD k default < obj := by
      intro k hk
      apply hA k (by omega) hk
    have hnomem : obj ∉ vec := by
      intro hmem
      obtain ⟨k, hk, hkv⟩ := mem_imp_getD hmem
      have := hall k hk
      rw [hkv] at this
      exact lt_irrefl obj this
    refine ⟨fun hmem => absurd hmem hnomem, fun _ => ?_⟩
    rw [hres]
    refine ⟨by omega, by omega, fun k _ hk => hall k hk, fun k hk hklen => by omega⟩

theorem mem_take_imp {v : List α} {p : Nat} {a : α} (h : a ∈ v.take p) :
    ∃ i : Nat, i < p ∧ i < v.length ∧ v.getD i default = a := by
  obtain ⟨i, hi, hia⟩ := List.mem_iff_getElem.mp h
  have hL := List.length_take p v
  refine ⟨i, by omega, by omega, ?_⟩
  rw [List.getD_eq_getElem v default (by omega), ← hia, List.getElem_take]

theorem mem_drop_imp {v : List α} {p : Nat} {b : α} (h : b ∈ v.drop p) :
    ∃ i : Nat, p ≤ i ∧ i < v.length ∧ v.getD i default = b := by
  obtain ⟨j, hj, hjb⟩ := List.mem_iff_getElem.mp h
  have hL := List.length_drop p v
  refine ⟨p + j, by omega, by omega, ?_⟩
  rw [List.getD_eq_getElem v default (by omega), ← hjb, List.getElem_drop]

/-- Inserting `x` strictly between the elements below and above position
`p` keeps the vector strictly sorted. -/
theorem pairwise_vector_insert {v : List α} {p : Nat} {x : α}
    (hs : v.Pairwise (fun a b => a < b)) (hp : p ≤ v.length)
    (h1 : ∀ k : Nat, k < p → k < v.length → v.getD k default < x)
    (h2 : ∀ k : Nat, p ≤ k → k < v.length → x < v.getD k default) :
    (vector_insert v p x).Pairwise (fun a b => a < b) := by
  rw [vector_insert, List.pairwise_append]
  refine ⟨hs.sublist (List.take_sublist p v), ?_, ?_⟩
  · rw [List.pairwise_cons]
    refine ⟨?_, hs.sublist (List.drop_sublist p v)⟩
    intro b hb
    obtain ⟨i, hip, hil, hib⟩ := mem_drop_imp hb
    exact hib ▸ h2 i hip hil
  · intro a ha b hb
    obtain ⟨i, hip, hil, hia⟩ := mem_take_imp ha
    have hax : a < x := hia ▸ h1 i hip hil
    rcases List.mem_cons.mp hb with rfl | hb'
    · exact hax
    · obtain ⟨j, hjp, hjl, hjb⟩ := mem_drop_imp hb'
      exact lt_trans hax (hjb ▸ h2 j hjp hjl)

/-- The `set_add` contract on a sorted set: invariant preservation, and
success exactly when no equal element is present. -/
theorem set_add_spec (s : CSet α) (e : α) (hs : SetInv s) :
    SetInv (set_add s e).1 ∧
    ((set_add s e).2 = true ↔ e ∉ s.vec) ∧
    ((set_add s e).2 = true → (set_add s e).1.vec.length = s.vec.length + 1) ∧
    ((set_add s e).2 = false → (set_add s e).1 = s) := by
  have hspec := insertPosGo_spec s.vec e hs 0 ((s.vec.length : Int) - 1)
    (le_refl 0) (by omega) (by omega)
    (fun k hk _ => absurd hk (by omega))
    (fun hlt => absurd hlt (by omega))
    (fun k hk _ => ⟨by omega, by omega⟩)
  have hip : insert_pos s e = insertPosGo s.vec e 0 ((s.vec.length : Int) - 1) := rfl
  by_cases hmem : e ∈ s.vec
  · have hm1 : insert_pos s e = -1 := by rw [hip]; exact hspec.1 hmem
    have hadd : set_add s e = (s, false) := by
      rw [set_add, hm1]
      simp
    rw [hadd]
    exact ⟨hs, by simp [hmem], by simp, fun _ => rfl⟩
  · obtain ⟨hge, hleL, hlt2, hgt2⟩ := hspec.2 hmem
    rw [← hip] at hge hleL hlt2 hgt2
    have hne : insert_pos s e ≠ -1 := by omega
    have hadd : set_add s e = (⟨vector_insert s.vec (insert_pos s e).toNat e⟩, true) := by
      rw [set_add]
      simp [hne]
    rw [hadd]
    refine ⟨?_, by simp [hmem], ?_, by simp⟩
    · apply pairwise_vector_insert hs (by omega)
      · intro k hk hkl
        exact hlt2 k (by omega) hkl
      · intro k hk hkl
        exact hgt2 k (by omega) hkl
    · intro _
      simp only [vector_insert, List.length_append, List.length_take,
        List.length_cons, List.length_drop]
      omega

theorem mem_setUnionGo : ∀ l r : List α, ∀ x : α,
    x ∈ setUnionGo l r → x ∈ l ∨ x ∈ r := by
  intro l r
  induction l, r using setUnionGo.induct with
  | case1 r => intro z hz; rw [setUnionGo] at hz; exact Or.inr hz
  | case2 x l => intro z hz; rw [setUnionGo] at hz; exact Or.inl hz
  | case3 x l y r hlt ih =>
    intro z hz
    rw [setUnionGo, if_pos hlt] at hz
    rcases List.mem_cons.mp hz with rfl | hz'
    · exact Or.inl (List.mem_cons_self z l)
    · rcases ih z hz' with h | h
      · exact Or.inl (List.mem_cons_of_mem x h)
      · exact Or.inr h
  | case4 x l y r hnlt hgt ih =>
    intro z hz
    rw [setUnionGo, if_neg hnlt, if_pos hgt] at hz
    rcases List.mem_cons.mp hz with rfl | hz'
    · exact Or.inr (List.mem_cons_self z r)
    · rcases ih z hz' with h | h
      · exact Or.inl h
      · exact Or.inr (List.mem_cons_of_mem y h)
  | case5 x l y r hnlt hngt ih =>
    intro z hz
    rw [setUnionGo, if_neg hnlt, if_neg hngt] at hz
    rcases List.mem_cons.mp hz with rfl | hz'
    · exact Or.inl (List.mem_cons_self z l)
    · rcases ih z hz' with h | h
      · exact Or.inl (List.mem_cons_of_mem x h)
      · exact Or.inr (List.mem_cons_of_mem y h)

theorem setUnionGo_pairwise : ∀ l r : List α,
    l.Pairwise (fun a b => a < b) → r.Pairwise (fun a b => a < b) →
    (setUnionGo l r).Pairwise (fun a b => a < b) := by
  intro l r
  induction l, r using setUnionGo.induct with
  | case1 r => intro _ hr; rw [setUnionGo]; exact hr
  | case2 x l => intro hl _; rw [setUnionGo]; exact hl
  | case3 x l y r hlt ih =>
    intro hl hr
    rw [setUnionGo, if_pos hlt, List.pairwise_cons]
    refine ⟨?_, ih (hl.of_cons) hr⟩
    intro z hz
    rcases mem_setUnionGo l (y :: r) z hz with h | h
    · exact List.rel_of_pairwise_cons hl h
    · rcases List.mem_cons.mp h with rfl | h'
      · exact hlt
      · exact lt_trans hlt (List.rel_of_pairwise_cons hr h')
  | case4 x l y r hnlt hgt ih =>
    intro hl hr
    rw [setUnionGo, if_neg hnlt, if_pos hgt, List.pairwise_cons]
    refine ⟨?_, ih hl (hr.of_cons)⟩
    intro z hz
    rcases mem_setUnionGo (x :: l) r z hz with h | h
    · rcases List.mem_cons.mp h with rfl | h'
      · exact hgt
      · exact lt_trans hgt (List.rel_of_pairwise_cons hl h')
    · exact List.rel_of_pairwise_cons hr h
  | case5 x l y r hnlt hngt ih =>
    intro hl hr
    have hxy : x = y := le_antisymm (le_of_not_lt hngt) (le_of_not_lt hnlt)
    rw [setUnionGo, if_neg hnlt, if_neg hngt, List.pairwise_cons]
    refine ⟨?_, ih (hl.of_cons) (hr.of_cons)⟩
    intro z hz
    rcases mem_setUnionGo l r z hz with h | h
    · exact List.rel_of_pairwise_cons hl h
    · exact hxy ▸ List.rel_of_pairwise_cons hr h

theorem setDiffGo_sublist : ∀ l r : List α, (setDiffGo l r).Sublist l := by
  intro l r
  induction l, r using setDiffGo.induct with
  | case1 r => rw [setDiffGo]
  | case2 x l ih => rw [setDiffGo]; exact ih.cons₂ x
  | case3 x l y r hlt ih => rw [setDiffGo, if_pos hlt]; exact ih.cons₂ x
  | case4 x l y r hnlt hgt ih => rw [setDiffGo, if_neg hnlt, if_pos hgt]; exact ih
  | case5 x l y r hnlt hngt ih => rw [setDiffGo, if_neg hnlt, if_neg hngt]; exact ih.cons x

theorem setInterGo_sublist : ∀ l r : List α, (setInterGo l r).Sublist l := by
  intro l r
  induction l, r using setInterGo.induct with
  | case1 r => rw [setInterGo]
  | case2 x l => rw [setInterGo]; exact List.nil_sublist _
  | case3 x l y r hlt ih => rw [setInterGo, if_pos hlt]; exact ih.cons x
  | case4 x l y r hnlt hgt ih => rw [setInterGo, if_neg hnlt, if_pos hgt]; exact ih
  | case5 x l y r hnlt hngt ih => rw [setInterGo, if_neg hnlt, if_neg hngt]; exact ih.cons₂ x

theorem vector_remove_sublist (v : List α) (i : Nat) :
    (vector_remove v i).Sublist v := by
  rw [vector_remove]
  have h1 : (v.drop (i + 1)).Sublist (v.drop i) := by
    rw [← List.drop_drop]
    exact List.drop_sublist 1 (v.drop i)
  calc (v.take i ++ v.drop (i + 1)).Sublist (v.take i ++ v.drop i) :=
        List.Sublist.append (List.Sublist.refl _) h1
    _ = v := List.take_append_drop i v

end SetProofs

/-- C9: every `set_t` reachable through `set_init`, `set_singleton`,
`set_add`, `set_remove`, `set_union`, `set_difference` and
`set_intersection` keeps its underlying vector strictly sorted by the
comparator (hence no two elements compare equal); and `set_add(s, e)`
returns true and grows the vector by one exactly when no element of `s`
compares equal to `e`, otherwise it returns false and leaves `s`
unchanged. -/
theorem set_reachable_invariant {α : Type} [LinearOrder α] [Inhabited α] :
    SetInv (set_init α) ∧
    (∀ e : α, SetInv (set_singleton e)) ∧
    (∀ (s : CSet α) (e : α), SetInv s → SetInv (set_add s e).1) ∧
    (∀ (s : CSet α) (e : α), SetInv s → SetInv (set_remove s e).1) ∧
    (∀ (l r : CSet α), SetInv l → SetInv r → SetInv (set_union l r)) ∧
    (∀ (l r : CSet α), SetInv l → SetInv r → SetInv (set_difference l r)) ∧
    (∀ (l r : CSet α), SetInv l → SetInv r → SetInv (set_intersection l r)) ∧
    (∀ (s : CSet α) (e : α), SetInv s →
      (((set_add s e).2 = true ↔ e ∉ s.vec) ∧
        ((set_add s e).2 = true → (set_add s e).1.vec.length = s.vec.length + 1) ∧
        ((set_add s e).2 = false → (set_add s e).1 = s))) := by
  have hinit : SetInv (set_init α) := List.Pairwise.nil
  refine ⟨hinit, ?_, ?_, ?_, ?_, ?_, ?_, ?_⟩
  · intro e
    exact (set_add_spec (set_init α) e hinit).1
  · intro s e hs
    exact (set_add_spec s e hs).1
  · intro s e hs
    rw [set_remove]
    by_cases h : setSearch s e ≠ -1
    · simp only [if_pos h]
      exact List.Pairwise.sublist (vector_remove_sublist s.vec _) hs
    · simp only [if_neg h]
      exact hs
  · intro l r hl hr
    exact setUnionGo_pairwise l.vec r.vec hl hr
  · intro l r hl hr
    exact List.Pairwise.sublist (setDiffGo_sublist l.vec r.vec) hl
  · intro l r hl hr
    exact List.Pairwise.sublist (setInterGo_sublist l.vec r.vec) hl
  · intro s e hs
    exact ⟨(set_add_spec s e hs).2.1, (set_add_spec s e hs).2.2.1,
      (set_add_spec s e hs).2.2.2⟩

/-- Witness for C9 on a concrete sorted `Nat` set: adding a fresh element
succeeds and adding a present element fails. -/
theorem set_reachable_invariant_witness :
    (set_add (CSet.mk [1, 3]) (2 : Nat)).2 = true ∧
    (set_add (CSet.mk [1, 3]) (3 : Nat)).2 = false := by
  have hInv : SetInv (CSet.mk ([1, 3] : List Nat)) :=
    show ([1, 3] : List Nat).Pairwise (fun a b => a < b) by decide
  constructor
  · exact ((set_reachable_invariant.2.2.2.2.2.2.2 ⟨[1, 3]⟩ 2 hInv).1).mpr
      (by decide)
  · have h := (set_reachable_invariant.2.2.2.2.2.2.2
      (CSet.mk ([1, 3] : List Nat)) 3 hInv).1
    cases hb : (set_add (CSet.mk [1, 3]) (3 : Nat)).2
    · rfl
    · exact ((h.mp hb) (by decide)).elim

/-! ### The interning term factory (src/limbo/term.h)

A `Symbol` carries the encoded id word `id_ = (id << 2) | kind` with kind
bits 0 = name, 1 = variable, 2 = function, a sort id (rigid iff odd, per
`Sort::Rigid(id) = 2*id+1`), and an arity.  `Symbol::operator==` compares
only `id_` and asserts that equal ids come with equal sort and arity, so
under that contract it coincides with structural equality, which is how we
model the `Data` comparison of the factory's interning map.

`Term::Factory` keeps two heaps (`name_heap_`, the rest in
`variable_and_function_heap_`) and a per-sort map from `Data = (symbol,
args)` to ids.  An id is `(heap position + 1) << 1 | name-bit`, so the map
lookup is equivalent to searching both heaps for a structurally equal
entry and recomputing its id from its position.  `CreateTerm` reuses the
interned id when the data is found and otherwise pushes the data onto the
heap selected by the name condition. -/

/-- A symbol: the encoded id word `id_`, the sort id and the arity. -/
structure Symbol where
  tag : Nat
  sort : Nat
  arity : Nat
deriving DecidableEq, Repr

/-- `Symbol::name()`: kind bits are 0. -/
def Symbol.name (s : Symbol) : Bool := s.tag % 4 == 0

/-- `Symbol::function()`: kind bits are 2. -/
def Symbol.function (s : Symbol) : Bool := s.tag % 4 == 2

/-- `Sort::rigid()`: odd sort ids are rigid. -/
def Symbol.sortRigid (s : Symbol) : Bool := s.sort % 2 == 1

/-- `Term::Data`: head symbol and argument term ids. -/
structure TermData where
  symbol : Symbol
  args : List Nat
deriving DecidableEq, Repr

/-- The state of `Term::Factory`: the name heap and the
variable-and-function heap. -/
structure TermFactory where
  name_heap : List TermData
  vf_heap : List TermData
deriving DecidableEq, Repr

namespace TermFactory

/-- `Term::Factory::get(id)`: dereference an id into its `Data` (term.h
lines 322-328): odd ids index `name_heap_`, even ids the other heap, at
position `(id >> 1) - 1`. -/
def get (f : TermFactory) (id : Nat) : Option TermData :=
  if id % 2 == 1 then f.name_heap.get? (id / 2 - 1)
  else f.vf_heap.get? (id / 2 - 1)

/-- `Term::function()` for a term id: dereferences the head symbol. -/
def termFunction (f : TermFactory) (t : Nat) : Bool :=
  match f.get t with
  | some d => d.symbol.function
  | none => false

/-- The interning lookup `memory_[symbol.sort()].find(d)`: a structurally
equal entry, with its id recomputed from its heap position
(`(position + 1) << 1 | name-bit`). -/
def lookup (f : TermFactory) (d : TermData) : Option Nat :=
  match f.name_heap.findIdx? (fun e => e == d) with
  | some i => some (2 * (i + 1) + 1)
  | none =>
    match f.vf_heap.findIdx? (fun e => e == d) with
    | some i => some (2 * (i + 1))
    | none => none

/-- The name condition of `CreateTerm` (term.h lines 307-309): the symbol
is a name, or it is a function into a rigid sort and every argument is a
name and not a function. -/
def nameCond (f : TermFactory) (d : TermData) : Bool :=
  d.symbol.name ||
    (Symbol.sortRigid d.symbol && d.symbol.function &&
      d.args.all (fun t => termName t && !(termFunction f t)))

/-- `Term::Factory::CreateTerm(symbol, args)` (term.h lines 300-320):
return the interned id if the data is present, else push the data onto the
heap chosen by the name condition and return the fresh id
`(heap size after push) << 1 | name-bit`. -/
def createTerm (f : TermFactory) (s : Symbol) (args : List Nat) :
    TermFactory × Nat :=
  let d : TermData := ⟨s, args⟩
  match f.lookup d with
  | some id => (f, id)
  | none =>
    if nameCond f d then
      (⟨f.name_heap ++ [d], f.vf_heap⟩, 2 * (f.name_heap.length + 1) + 1)
    else
      (⟨f.name_heap, f.vf_heap ++ [d]⟩, 2 * (f.vf_heap.length + 1))

theorem findIdx?_beq_some {l : List TermData} {d : TermData} {i : Nat}
    (h : l.findIdx? (fun e => e == d) = some i) :
    i < l.length ∧ l.get? i = some d := by
  obtain ⟨hlt, hbeq, _⟩ := List.findIdx?_eq_some_iff_getElem.mp h
  refine ⟨hlt, ?_⟩
  rw [List.get?_eq_getElem? , List.getElem?_eq_getElem hlt]
  exact congrArg some (beq_iff_eq.mp hbeq)

/-- A successful interning lookup dereferences back to the data. -/
theorem lookup_get {f : TermFactory} {d : TermData} {id : Nat}
    (h : f.lookup d = some id) : f.get id = some d := by
  rw [lookup] at h
  cases hn : f.name_heap.findIdx? (fun e => e == d) with
  | some i =>
    rw [hn] at h
    obtain ⟨hlt, hget⟩ := findIdx?_beq_some hn
    have hid : id = 2 * (i + 1) + 1 := by
      exact (Option.some.injEq _ _).mp h |>.symm
    subst hid
    rw [get]
    have hpar : ((2 * (i + 1) + 1) % 2 == 1) = true := by
      simp only [beq_iff_eq]
      omega
    rw [if_pos hpar]
    have hidx : (2 * (i + 1) + 1) / 2 - 1 = i := by omega
    rw [hidx]
    exact hget
  | none =>
    rw [hn] at h
    cases hv : f.vf_heap.findIdx? (fun e => e == d) with
    | some i =>
      rw [hv] at h
      obtain ⟨hlt, hget⟩ := findIdx?_beq_some hv
      have hid : id = 2 * (i + 1) := by
        exact (Option.some.injEq _ _).mp h |>.symm
      subst hid
      rw [get]
      have hpar : ((2 * (i + 1)) % 2 == 1) = false := by
        simp only [beq_eq_false_iff_ne, ne_eq]
        omega
      rw [if_neg (by simp [hpar])]
      have hidx : 2 * (i + 1) / 2 - 1 = i := by omega
      rw [hidx]
      exact hget
    | none =>
      rw [hv] at h
      exact absurd h (by simp)

/-- Bounds on an interned id: odd ids point into the name heap, even ids
into the other heap, always at or below the current top. -/
theorem lookup_bound {f : TermFactory} {d : TermData} {id : Nat}
    (h : f.lookup d = some id) :
    (id % 2 = 1 ∧ id ≤ 2 * f.name_heap.length + 1) ∨
    (id % 2 = 0 ∧ id ≤ 2 * f.vf_heap.length) := by
  rw [lookup] at h
  cases hn : f.name_heap.findIdx? (fun e => e == d) with
  | some i =>
    rw [hn] at h
    obtain ⟨hlt, _⟩ := findIdx?_beq_some hn
    have hid : id = 2 * (i + 1) + 1 := ((Option.some.injEq _ _).mp h).symm
    left
    omega
  | none =>
    rw [hn] at h
    cases hv : f.vf_heap.findIdx? (fun e => e == d) with
    | some i =>
      rw [hv] at h
      obtain ⟨hlt, _⟩ := findIdx?_beq_some hv
      have hid : id = 2 * (i + 1) := ((Option.some.injEq _ _).mp h).symm
      right
      omega
    | none =>
      rw [hv] at h
      exact absurd h (by simp)

theorem lookup_none_iff {f : TermFactory} {d : TermData} :
    f.lookup d = none ↔ d ∉ f.name_heap ∧ d ∉ f.vf_heap := by
  rw [lookup]
  constructor
  · intro h
    cases hn : f.name_heap.findIdx? (fun e => e == d) with
    | some i => rw [hn] at h; exact absurd h (by simp)
    | none =>
      rw [hn] at h
      cases hv : f.vf_heap.findIdx? (fun e => e == d) with
      | some i => rw [hv] at h; exact absurd h (by simp)
      | none =>
        have h1 := List.findIdx?_eq_none_iff.mp hn d
        have h2 := List.findIdx?_eq_none_iff.mp hv d
        constructor
        · intro hmem
          simpa using h1 hmem
        · intro hmem
          simpa using h2 hmem
  · rintro ⟨h1, h2⟩
    have hn : f.name_heap.findIdx? (fun e => e == d) = none := by
      rw [List.findIdx?_eq_none_iff]
      intro x hx
      simp only [beq_eq_false_iff_ne, ne_eq]
      rintro rfl
      exact h1 hx
    have hv : f.vf_heap.findIdx? (fun e => e == d) = none := by
      rw [List.findIdx?_eq_none_iff]
      intro x hx
      simp only [beq_eq_false_iff_ne, ne_eq]
      rintro rfl
      exact h2 hx
    rw [hn, hv]

/-- Looking up the entry just pushed onto the name heap yields the fresh
odd id. -/
theorem lookup_push_name {f : TermFactory} {d : TermData}
    (h : f.lookup d = none) :
    TermFactory.lookup ⟨f.name_heap ++ [d], f.vf_heap⟩ d =
      some (2 * (f.name_heap.length + 1) + 1) := by
  obtain ⟨h1, _⟩ := lookup_none_iff.mp h
  have hn : f.name_heap.findIdx? (fun e => e == d) = none := by
    rw [List.findIdx?_eq_none_iff]
    intro x hx
    simp only [beq_eq_false_iff_ne, ne_eq]
    rintro rfl
    exact h1 hx
  rw [lookup]
  simp only [List.findIdx?_append, hn, Option.none_or]
  have hone : ([d].findIdx? (fun e => e == d)) = some 0 := by
    simp [List.findIdx?_cons]
  simp [hone]

/-- Looking up the entry just pushed onto the other heap yields the fresh
even id. -/
theorem lookup_push_vf {f : TermFactory} {d : TermData}
    (h : f.lookup d = none) :
    TermFactory.lookup ⟨f.name_heap, f.vf_heap ++ [d]⟩ d =
      some (2 * (f.vf_heap.length + 1)) := by
  obtain ⟨h1, h2⟩ := lookup_none_iff.mp h
  have hn : f.name_heap.findIdx? (fun e => e == d) = none := by
    rw [List.findIdx?_eq_none_iff]
    intro x hx
    simp only [beq_eq_false_iff_ne, ne_eq]
    rintro rfl
    exact h1 hx
  have hv : f.vf_heap.findIdx? (fun e => e == d) = none := by
    rw [List.findIdx?_eq_none_iff]
    intro x hx
    simp only [beq_eq_false_iff_ne, ne_eq]
    rintro rfl
    exact h2 hx
  rw [lookup]
  simp only [hn]
  simp only [List.findIdx?_append, hv, Option.none_or]
  have hone : ([d].findIdx? (fun e => e == d)) = some 0 := by
    simp [List.findIdx?_cons]
  simp [hone]

theorem get_push_name {f : TermFactory} {d : TermData} :
    TermFactory.get ⟨f.name_heap ++ [d], f.vf_heap⟩
      (2 * (f.name_heap.length + 1) + 1) = some d := by
  rw [get]
  have hpar : ((2 * (f.name_heap.length + 1) + 1) % 2 == 1) = true := by
    simp only [beq_iff_eq]
    omega
  rw [if_pos hpar]
  have hidx : (2 * (f.name_heap.length + 1) + 1) / 2 - 1 = f.name_heap.length := by
    omega
  rw [hidx]
  simp

theorem get_push_vf {f : TermFactory} {d : TermData} :
    TermFactory.get ⟨f.name_heap, f.vf_heap ++ [d]⟩
      (2 * (f.vf_heap.length + 1)) = some d := by
  rw [get]
  have hpar : ((2 * (f.vf_heap.length + 1)) % 2 == 1) = false := by
    simp only [beq_eq_false_iff_ne, ne_eq]
    omega
  rw [if_neg (by simp [hpar])]
  have hidx : (2 * (f.vf_heap.length + 1)) / 2 - 1 = f.vf_heap.length := by
    omega
  rw [hidx]
  simp

end TermFactory

/-- C5: on one factory, two `CreateTerm` calls return the same id exactly
when they were made with the same symbol and the same argument vector
(interning).  The first call runs on `f`, the second on the factory state
the first call returns. -/
theorem createTerm_interning (f : TermFactory) (s1 s2 : Symbol)
    (args1 args2 : List Nat) :
    ((f.createTerm s1 args1).1.createTerm s2 args2).2 = (f.createTerm s1 args1).2 ↔
      (s1 = s2 ∧ args1 = args2) := by
  have hdeq : (s1 = s2 ∧ args1 = args2) ↔ (⟨s1, args1⟩ : TermData) = ⟨s2, args2⟩ := by
    constructor
    · rintro ⟨rfl, rfl⟩; rfl
    · intro h; cases h; exact ⟨rfl, rfl⟩
  rw [hdeq]
  rcases h1 : f.lookup ⟨s1, args1⟩ with _ | id1
  all_goals rcases hcase1 : TermFactory.nameCond f ⟨s1, args1⟩ with _ | _
  -- the four goals share the same structure; handle each state of the
  -- first call explicitly
  case' none.false =>
    have hstep1 : f.createTerm s1 args1 =
        (⟨f.name_heap, f.vf_heap ++ [⟨s1, args1⟩]⟩, 2 * (f.vf_heap.length + 1)) := by
      rw [TermFactory.createTerm]
      simp only [h1, hcase1]
      simp
  case' none.true =>
    have hstep1 : f.createTerm s1 args1 =
        (⟨f.name_heap ++ [⟨s1, args1⟩], f.vf_heap⟩, 2 * (f.name_heap.length + 1) + 1) := by
      rw [TermFactory.createTerm]
      simp only [h1, hcase1]
      simp
  case' some.false =>
    have hstep1 : f.createTerm s1 args1 = (f, id1) := by
      rw [TermFactory.createTerm]
      simp only [h1]
  case' some.true =>
    have hstep1 : f.createTerm s1 args1 = (f, id1) := by
      rw [TermFactory.createTerm]
      simp only [h1]
  all_goals rw [hstep1]
  -- found case: the first call left the factory unchanged
  case' some.false | some.true =>
    simp only
    rcases h2 : f.lookup ⟨s2, args2⟩ with _ | id2
    · -- second call creates a fresh id, necessarily distinct from id1
      have hb1 := TermFactory.lookup_bound h1
      have hstep2ne : (f.createTerm s2 args2).2 ≠ id1 := by
        rw [TermFactory.createTerm]
        simp only [h2]
        rcases hc : TermFactory.nameCond f ⟨s2, args2⟩ with _ | _
        · rw [if_neg (by simp [hc])]
          show 2 * (f.vf_heap.length + 1) ≠ id1
          omega
        · rw [if_pos (by simp [hc])]
          show 2 * (f.name_heap.length + 1) + 1 ≠ id1
          omega
      constructor
      · intro h
        exact absurd h hstep2ne
      · intro hd
        rw [← hd] at h2
        rw [h1] at h2
        exact absurd h2 (by simp)
    · have hstep2 : f.createTerm s2 args2 = (f, id2) := by
        rw [TermFactory.createTerm]
        simp only [h2]
      rw [hstep2]
      simp only
      constructor
      · intro hid
        subst hid
        have hg1 := TermFactory.lookup_get h1
        have hg2 := TermFactory.lookup_get h2
        rw [hg1] at hg2
        exact ((Option.some.injEq _ _).mp hg2)
      · intro hd
        rw [← hd, h1] at h2
        exact ((Option.some.injEq _ _).mp h2).symm
  -- created case, name heap
  case' none.true =>
    simp only
    have hget1 : TermFactory.get ⟨f.name_heap ++ [⟨s1, args1⟩], f.vf_heap⟩
        (2 * (f.name_heap.length + 1) + 1) = some ⟨s1, args1⟩ :=
      TermFactory.get_push_name
    have hlk1 : TermFactory.lookup ⟨f.name_heap ++ [⟨s1, args1⟩], f.vf_heap⟩ ⟨s1, args1⟩ =
        some (2 * (f.name_heap.length + 1) + 1) :=
      TermFactory.lookup_push_name h1
    rcases h2 : TermFactory.lookup ⟨f.name_heap ++ [⟨s1, args1⟩], f.vf_heap⟩ ⟨s2, args2⟩
      with _ | id2
    · -- d2 not interned in the new state: in particular d2 ≠ d1, and the
      -- second call creates a fresh id distinct from id1
      have hstep2ne : (TermFactory.createTerm ⟨f.name_heap ++ [⟨s1, args1⟩], f.vf_heap⟩
          s2 args2).2 ≠ 2 * (f.name_heap.length + 1) + 1 := by
        rw [TermFactory.createTerm]
        simp only [h2]
        rcases hc : TermFactory.nameCond ⟨f.name_heap ++ [⟨s1, args1⟩], f.vf_heap⟩
            ⟨s2, args2⟩ with _ | _
        · rw [if_neg (by simp [hc])]
          show 2 * (f.vf_heap.length + 1) ≠ 2 * (f.name_heap.length + 1) + 1
          omega
        · rw [if_pos (by simp [hc])]
          show 2 * ((f.name_heap ++ [(⟨s1, args1⟩ : TermData)]).length + 1) + 1 ≠
            2 * (f.name_heap.length + 1) + 1
          simp only [List.length_append, List.length_cons, List.length_nil]
          omega
      constructor
      · intro h
        exact absurd h hstep2ne
      · intro hd
        rw [← hd, hlk1] at h2
        exact absurd h2 (by simp)
    · have hstep2 : TermFactory.createTerm ⟨f.name_heap ++ [⟨s1, args1⟩], f.vf_heap⟩
          s2 args2 = (⟨f.name_heap ++ [⟨s1, args1⟩], f.vf_heap⟩, id2) := by
        rw [TermFactory.createTerm]
        simp only [h2]
      rw [hstep2]
      simp only
      constructor
      · intro hid
        subst hid
        have hg2 := TermFactory.lookup_get h2
        rw [hget1] at hg2
        exact ((Option.some.injEq _ _).mp hg2)
      · intro hd
        rw [← hd, hlk1] at h2
        exact ((Option.some.injEq _ _).mp h2).symm
  -- created case, variable-and-function heap
  case' none.false =>
    simp only
    have hget1 : TermFactory.get ⟨f.name_heap, f.vf_heap ++ [⟨s1, args1⟩]⟩
        (2 * (f.vf_heap.length + 1)) = some ⟨s1, args1⟩ :=
      TermFactory.get_push_vf
    have hlk1 : TermFactory.lookup ⟨f.name_heap, f.vf_heap ++ [⟨s1, args1⟩]⟩ ⟨s1, args1⟩ =
        some (2 * (f.vf_heap.length + 1)) :=
      TermFactory.lookup_push_vf h1
    rcases h2 : TermFactory.lookup ⟨f.name_heap, f.vf_heap ++ [⟨s1, args1⟩]⟩ ⟨s2, args2⟩
      with _ | id2
    · have hstep2ne : (TermFactory.createTerm ⟨f.name_heap, f.vf_heap ++ [⟨s1, args1⟩]⟩
          s2 args2).2 ≠ 2 * (f.vf_heap.length + 1) := by
        rw [TermFactory.createTerm]
        simp only [h2]
        rcases hc : TermFactory.nameCond ⟨f.name_heap, f.vf_heap ++ [⟨s1, args1⟩]⟩
            ⟨s2, args2⟩ with _ | _
        · rw [if_neg (by simp [hc])]
          show 2 * ((f.vf_heap ++ [(⟨s1, args1⟩ : TermData)]).length + 1) ≠
            2 * (f.vf_heap.length + 1)
          simp only [List.length_append, List.length_cons, List.length_nil]
          omega
        · rw [if_pos (by simp [hc])]
          show 2 * (f.name_heap.length + 1) + 1 ≠ 2 * (f.vf_heap.length + 1)
          omega
      constructor
      · intro h
        exact absurd h hstep2ne
      · intro hd
        rw [← hd, hlk1] at h2
        exact absurd h2 (by simp)
    · have hstep2 : TermFactory.createTerm ⟨f.name_heap, f.vf_heap ++ [⟨s1, args1⟩]⟩
          s2 args2 = (⟨f.name_heap, f.vf_heap ++ [⟨s1, args1⟩]⟩, id2) := by
        rw [TermFactory.createTerm]
        simp only [h2]
      rw [hstep2]
      simp only
      constructor
      · intro hid
        subst hid
        have hg2 := TermFactory.lookup_get h2
        rw [hget1] at hg2
        exact ((Option.some.injEq _ _).mp hg2)
      · intro hd
        rw [← hd, hlk1] at h2
        exact ((Option.some.injEq _ _).mp h2).symm

/-! ### C7: propagation of the name bit through `CreateTerm`

`CreateTerm` marks the new term as a name when `symbol.name()`, or when
the symbol is a function of rigid sort and every argument `t` satisfies
`t.name() && !t.function()` (term.h lines 307-309).  The extra
`!t.function()` conjunct matters: a rigid-sort function applied to name
symbols is itself a name *and* a function, so applying the function once
more to that term yields a non-name even though every argument satisfies
`name()`. -/

/-- `Symbol::Factory::CreateName(1, Sort::Rigid(0))`: id word
`(1 << 2) | 0 = 4`, sort `2*0+1 = 1`, arity 0. -/
def nSym : Symbol := ⟨4, 1, 0⟩

/-- `Symbol::Factory::CreateFunction(1, Sort::Rigid(0), 1)`: id word
`(1 << 2) | 2 = 6`, sort `1`, arity 1. -/
def gSym : Symbol := ⟨6, 1, 1⟩

/-- The factory after `CreateTerm(nSym)` (giving the name `n`, id 3) and
`CreateTerm(gSym, {n})` (giving `g(n)`, id 5, which carries the name bit
because `g` is a rigid-sort function and `n` a name symbol). -/
def cexFactory : TermFactory :=
  ((((TermFactory.mk [] []).createTerm nSym []).1).createTerm gSym [3]).1

/-- Counterexample to C7 as stated: on `cexFactory` the term id 5 (the
term `g(n)`, reproduced by the interned call) satisfies `name()`, `g` is a
rigid-sort function, yet `CreateTerm(g, {g(n)})` returns a term that does
not satisfy `name()` — name-ness does not propagate to functions applied
to arguments that are names but also functions. -/
theorem createTerm_name_not_propagated_cex :
    Symbol.function gSym = true ∧ Symbol.sortRigid gSym = true ∧
    (cexFactory.createTerm gSym [3]).2 = 5 ∧ termName 5 = true ∧
    termName ((cexFactory.createTerm gSym [5]).2) = false := by
  decide

/-- Well-formedness of a factory state: every heap entry sits on the heap
its name condition prescribes.  Every state reachable through `CreateTerm`
satisfies this (arguments refer to earlier heap positions, and `get` on an
existing position is unchanged by later pushes). -/
def TermFactory.wf (f : TermFactory) : Bool :=
  f.name_heap.all (fun d => TermFactory.nameCond f d) &&
  f.vf_heap.all (fun d => !(TermFactory.nameCond f d))

/-- C7 (amended): on a well-formed factory, a function symbol of rigid
sort applied to argument terms all of which satisfy `name()` *and are not
function terms* yields a term satisfying `name()`; and `name()` is decided
by the low bit of the term id (`termName` is exactly that test). -/
theorem createTerm_name_propagation (f : TermFactory) (s : Symbol)
    (args : List Nat) (hwf : f.wf = true)
    (hf : s.function = true) (hr : Symbol.sortRigid s = true)
    (ha : args.all (fun t => termName t && !(TermFactory.termFunction f t)) = true) :
    termName ((f.createTerm s args).2) = true ∧
    (∀ t : Nat, termName t = (t % 2 == 1)) := by
  refine ⟨?_, fun t => rfl⟩
  have hnc : TermFactory.nameCond f ⟨s, args⟩ = true := by
    rw [TermFactory.nameCond]
    simp [hr, hf, ha]
  rcases hlk : f.lookup ⟨s, args⟩ with _ | id
  · have hstep : f.createTerm s args =
        (⟨f.name_heap ++ [⟨s, args⟩], f.vf_heap⟩, 2 * (f.name_heap.length + 1) + 1) := by
      rw [TermFactory.createTerm]
      simp only [hlk, hnc, if_pos]
    rw [hstep]
    rw [termName]
    simp only [beq_iff_eq]
    omega
  · have hstep : f.createTerm s args = (f, id) := by
      rw [TermFactory.createTerm]
      simp only [hlk]
    rw [hstep]
    simp only
    rw [TermFactory.lookup] at hlk
    cases hn : f.name_heap.findIdx? (fun e => e == (⟨s, args⟩ : TermData)) with
    | some i =>
      rw [hn] at hlk
      have hid : id = 2 * (i + 1) + 1 := ((Option.some.injEq _ _).mp hlk).symm
      subst hid
      rw [termName]
      simp only [beq_iff_eq]
      omega
    | none =>
      rw [hn] at hlk
      cases hv : f.vf_heap.findIdx? (fun e => e == (⟨s, args⟩ : TermData)) with
      | some i =>
        obtain ⟨hlt, hget⟩ := TermFactory.findIdx?_beq_some hv
        have hmem : (⟨s, args⟩ : TermData) ∈ f.vf_heap := by
          exact List.get?_mem hget
        simp only [TermFactory.wf, Bool.and_eq_true, List.all_eq_true] at hwf
        have := hwf.2 _ hmem
        rw [hnc] at this
        exact absurd this (by simp)
      | none =>
        rw [hv] at hlk
        exact absurd hlk (by simp)

/-- Witness for the amended C7 on the concrete factory: `g` applied to the
pure name symbol term `n` (id 3) yields a term with the name bit. -/
theorem createTerm_name_propagation_witness :
    termName ((cexFactory.createTerm gSym [3]).2) = true :=
  (createTerm_name_propagation cexFactory gSym [3]
    (by decide) (by decide) (by decide) (by decide)).1

/-! ### Queries (src/query.c)

The query type has the variants of `enum query_type`; the `EX` payload is
a continuation producing the body for a standard name, as in the source.
The `LIT` payload is the old C core's `literal_t`. -/

/-- Modelled from the spec: the C `literal.h` defining `literal_t`,
`literal_flip` and `literal_prepend_all` is not among the sources; per the
spec a literal is `[z](¬)P(args)` — an action-sequence prefix `z`, a sign,
a predicate and arguments. -/
structure CLiteral where
  z : List Nat
  sign : Bool
  pred : Nat
  args : List Nat
deriving DecidableEq, Repr

/-- Modelled from the spec: `literal_flip` toggles the literal's sign. -/
def CLiteral.flip (l : CLiteral) : CLiteral := ⟨l.z, !l.sign, l.pred, l.args⟩

/-- Modelled from the spec: `literal_prepend_all(z, l)` prepends the
action sequence `z` to the literal's prefix. -/
def CLiteral.prependAll (z : List Nat) (l : CLiteral) : CLiteral :=
  ⟨z ++ l.z, l.sign, l.pred, l.args⟩

/-- `query_t` (query.c lines 6-26). -/
inductive Query where
  | eq (n1 n2 : Nat)
  | neq (n1 n2 : Nat)
  | lit (l : CLiteral)
  | or (phi1 phi2 : Query)
  | and (phi1 phi2 : Query)
  | neg (phi : Query)
  | ex (phi : Nat → Query)
  | act (n : Nat) (phi : Query)

/-- `query_ground_quantifier` (query.c lines 120-139): expand a
quantifier body over the name universe, chaining with `OR` for an
existential and `AND` otherwise; an empty universe indexes out of bounds
in the source and is `none` here. -/
def query_ground_quantifier (existential : Bool) (phi : Nat → Query) :
    List Nat → Option Query
  | [] => none
  | [n] => some (phi n)
  | n :: m :: ns =>
    match query_ground_quantifier existential phi (m :: ns) with
    | none => none
    | some psi2 =>
      some (if existential then Query.or (phi n) psi2 else Query.and (phi n) psi2)

/-- `query_ennf_h` (query.c lines 141-224), with a fuel parameter because
the `EX` case recurses on the freshly built expansion.  Under `flip` an
`EQ` becomes an `NEQ`; an `NEQ` under `flip` is rewritten by the source
with `.type = NEQ` again (reading the pair through the aliased union
member `u.eq`), so the node is returned unchanged.  `LIT` flips the
literal and prepends the accumulated action prefix; `OR`/`AND` are
De-Morganed under `flip`; `NEG` toggles `flip`; `EX` grounds the
quantifier (existential iff not flipped) and recurses; `ACT` appends the
action to the prefix. -/
def query_ennf_h : Nat → Query → List Nat → Bool → List Nat → Option Query
  | 0, _, _, _, _ => none
  | _ + 1, Query.eq n1 n2, _, flp, _ =>
    some (if flp then Query.neq n1 n2 else Query.eq n1 n2)
  | _ + 1, Query.neq n1 n2, _, _, _ =>
    some (Query.neq n1 n2)
  | _ + 1, Query.lit l, _, flp, z =>
    let l1 := if flp then CLiteral.flip l else l
    some (Query.lit (if 0 < z.length then CLiteral.prependAll z l1 else l1))
  | fuel + 1, Query.or phi1 phi2, hplus, flp, z => do
    let psi1 ← query_ennf_h fuel phi1 hplus flp z
    let psi2 ← query_ennf_h fuel phi2 hplus flp z
    some (if flp then Query.and psi1 psi2 else Query.or psi1 psi2)
  | fuel + 1, Query.and phi1 phi2, hplus, flp, z => do
    let psi1 ← query_ennf_h fuel phi1 hplus flp z
    let psi2 ← query_ennf_h fuel phi2 hplus flp z
    some (if flp then Query.or psi1 psi2 else Query.and psi1 psi2)
  | fuel + 1, Query.neg phi, hplus, flp, z =>
    query_ennf_h fuel phi hplus (!flp) z
  | fuel + 1, Query.ex phi, hplus, flp, z =>
    match query_ground_quantifier (!flp) phi hplus with
    | none => none
    | some psi => query_ennf_h fuel psi hplus flp z
  | fuel + 1, Query.act n phi, hplus, flp, z =>
    query_ennf_h fuel phi hplus flp (z ++ [n])

/-- `query_ennf` (query.c lines 226-230): start with `flip = false` and the
empty action prefix. -/
def query_ennf (fuel : Nat) (phi : Query) (hplus : List Nat) : Option Query :=
  query_ennf_h fuel phi hplus false []

/-- C4 (code bug): the ENNF of `¬(1 ≠ 2)` is `1 ≠ 2` — the flipped `NEQ`
case writes the node with `.type = NEQ` again instead of `EQ`, so the
negation of an inequality is not turned into the equality and the result
is not equivalent to the input; the `EQ` case correctly yields `1 ≠ 2`
for `¬(1 = 2)`. -/
theorem query_ennf_neq_under_negation :
    query_ennf 2 (Query.neg (Query.neq 1 2)) [] = some (Query.neq 1 2) ∧
    query_ennf 2 (Query.neg (Query.eq 1 2)) [] = some (Query.neq 1 2) :=
  ⟨rfl, rfl⟩

/-- `query_simplify` (query.c lines 268-347).  The `truth_value` parameter
is the C out-pointer's current contents; the source's collapse conditions
test the *pointer* (`truth_value`, always non-NULL, hence always true) and
its negation (`!truth_value`, always false) instead of `*truth_value`, so
an `OR` collapses to a constant as soon as either disjunct folds to a
constant of either value, and an `AND` never collapses via those tests —
a constant-folded conjunct is simply dropped (and if both conjuncts fold,
the second constant wins). -/
def query_simplify : Query → Bool → Option Query × Bool
  | Query.eq n1 n2, _ => (none, n1 == n2)
  | Query.neq n1 n2, _ => (none, n1 != n2)
  | Query.lit l, tv => (some (Query.lit l), tv)
  | Query.or phi1 phi2, tv =>
    match query_simplify phi1 tv with
    | (none, tv1) => (none, tv1)
    | (some psi1, tv1) =>
      match query_simplify phi2 tv1 with
      | (none, tv2) => (none, tv2)
      | (some psi2, tv2) => (some (Query.or psi1 psi2), tv2)
  | Query.and phi1 phi2, tv =>
    match query_simplify phi1 tv with
    | (r1, tv1) =>
      match query_simplify phi2 tv1 with
      | (r2, tv2) =>
        match r1, r2 with
        | none, r2q => (r2q, tv2)
        | some psi1, none => (some psi1, tv2)
        | some psi1, some psi2 => (some (Query.and psi1 psi2), tv2)
  | Query.neg phi, tv =>
    match query_simplify phi tv with
    | (none, tv1) => (none, tv1)
    | (some psi, tv1) => (some (Query.neg psi), tv1)
  | Query.ex phi, tv => (some (Query.ex phi), tv)
  | Query.act n phi, tv => (some (Query.act n phi), tv)

/-- A ground atom used as a neutral second operand in the C3 evaluation. -/
def sampleLit : CLiteral := ⟨[], true, 0, []⟩

/-- C3 (code bug): constant propagation in `query_simplify` does not follow
the standard Boolean rules.  `(1 = 2) ∧ L` should collapse to the constant
false, but the source drops the false conjunct and returns `L`; dually
`(1 = 2) ∨ L` should simplify to `L`, but the source collapses the whole
disjunction to the constant false. -/
theorem query_simplify_constant_folding :
    query_simplify (Query.and (Query.eq 1 2) (Query.lit sampleLit)) true =
      (some (Query.lit sampleLit), false) ∧
    query_simplify (Query.or (Query.eq 1 2) (Query.lit sampleLit)) true =
      (none, false) :=
  ⟨rfl, rfl⟩

/-! ### `Clause::Normalize` and the clause constructor (src/limbo/clause.h)

`Normalize<guarantee_invalid = false>` walks the literal array with a read
index `i2` and a write index `i1 ≤ i2`.  For the current literal it scans
the already-kept prefix: a jointly valid pair makes the whole clause the
unit null (valid) clause (`return -1`); a kept literal subsumed-by makes
the current literal a duplicate to drop.  Then it scans the remaining
input: if the current literal properly subsumes a later one it is dropped
(the later, weaker one survives the comparison).  Otherwise it is kept.
Since `i1 ≤ i2 < j`, positions at and beyond `i2` still hold the original
input when compared, so the loop is equivalent to the recursion below on
(kept prefix, remaining input). -/

inductive KeptCheck where
  | collapse
  | skip
  | keep
deriving DecidableEq, Repr

/-- The scan of the kept prefix (`for j in [0, i1)` of `Normalize`), first
trigger wins: `Valid(as[i2], as[j])` collapses, `as[i2].Subsumes(as[j])`
skips. -/
def checkKept (x : Lit) : List Lit → KeptCheck
  | [] => KeptCheck.keep
  | k :: ks =>
    if Lit.Valid x k then KeptCheck.collapse
    else if Lit.Subsumes x k then KeptCheck.skip
    else checkKept x ks

/-- The `Normalize` loop (clause.h lines 42-67): `none` models the C
result -1 (collapse to the valid clause), `some ks` the kept literals. -/
def normalizeGo (kept : List Lit) : List Lit → Option (List Lit)
  | [] => some kept
  | x :: rest =>
    match checkKept x kept with
    | KeptCheck.collapse => none
    | KeptCheck.skip => normalizeGo kept rest
    | KeptCheck.keep =>
      if rest.any (fun y => Lit.ProperlySubsumes x y) then normalizeGo kept rest
      else normalizeGo (kept ++ [x]) rest

/-- The clause constructor with `guaranteed_normalized = false` (clause.h
lines 140-148), as built by `Clause::Factory::New`: run `Normalize`; on
-1 the clause is the unit clause holding only the null literal. -/
def clauseNew (as : List Lit) : List Lit :=
  match normalizeGo [] as with
  | none => [Lit.null]
  | some ks => ks

theorem Valid_symm_false {a b : Lit} (h : Lit.Valid a b = false) :
    Lit.Valid b a = false := by
  cases hv : Lit.Valid b a
  · rfl
  · rw [Lit.Valid_symm hv] at h
    exact absurd h (by simp)

/-- In a list pairwise free of jointly valid literals, no two members are
jointly valid (also for equal members, since `Valid` is irreflexive). -/
theorem pairwise_no_valid {l : List Lit}
    (h : l.Pairwise (fun a b => Lit.Valid a b = false))
    {a b : Lit} (ha : a ∈ l) (hb : b ∈ l) : Lit.Valid a b = false := by
  by_cases hab : a = b
  · subst hab
    exact Lit.Valid_irrefl a
  · exact List.Pairwise.forall (fun x y hxy => Valid_symm_false hxy) h ha hb hab

theorem checkKept_keep {x : Lit} : ∀ {kept : List Lit},
    checkKept x kept = KeptCheck.keep →
    ∀ k ∈ kept, Lit.Valid x k = false ∧ Lit.Subsumes x k = false := by
  intro kept
  induction kept with
  | nil => intro _ k hk; exact absurd hk (List.not_mem_nil k)
  | cons k0 ks ih =>
    intro h k hk
    rw [checkKept] at h
    by_cases hv : Lit.Valid x k0
    · rw [if_pos hv] at h
      exact absurd h (by simp)
    · rw [if_neg hv] at h
      by_cases hsub : Lit.Subsumes x k0
      · rw [if_pos hsub] at h
        exact absurd h (by simp)
      · rw [if_neg hsub] at h
        rcases List.mem_cons.mp hk with rfl | hk'
        · exact ⟨by simpa using hv, by simpa using hsub⟩
        · exact ih h k hk'

theorem checkKept_skip {x : Lit} : ∀ {kept : List Lit},
    checkKept x kept = KeptCheck.skip →
    ∃ k ∈ kept, Lit.Subsumes x k = true := by
  intro kept
  induction kept with
  | nil => intro h; exact absurd h (by rw [checkKept]; simp)
  | cons k0 ks ih =>
    intro h
    rw [checkKept] at h
    by_cases hv : Lit.Valid x k0
    · rw [if_pos hv] at h
      exact absurd h (by simp)
    · rw [if_neg hv] at h
      by_cases hsub : Lit.Subsumes x k0
      · exact ⟨k0, List.mem_cons_self k0 ks, by simpa using hsub⟩
      · rw [if_neg hsub] at h
        obtain ⟨k, hk, hks⟩ := ih h
        exact ⟨k, List.mem_cons_of_mem k0 hk, hks⟩

/-- If `Normalize` succeeds without collapsing, the input (behind any
valid-free kept prefix) contained no jointly valid pair: the collapse
check fires on every pair both of whose members ever meet, and the
subsumption transfer `Valid_of_Subsumes` covers dropped literals. -/
theorem normalizeGo_no_valid_pair :
    ∀ (rest kept ks : List Lit),
      kept.Pairwise (fun a b => Lit.Valid a b = false) →
      normalizeGo kept rest = some ks →
      (kept ++ rest).Pairwise (fun a b => Lit.Valid a b = false) := by
  intro rest
  induction rest with
  | nil =>
    intro kept ks hk _
    simpa using hk
  | cons x rest ih =>
    intro kept ks hk h
    rw [normalizeGo] at h
    cases hc : checkKept x kept with
    | collapse =>
      rw [hc] at h
      exact absurd h (by simp)
    | skip =>
      rw [hc] at h
      have hrec := ih kept ks hk h
      obtain ⟨k0, hk0, hsub⟩ := checkKept_skip hc
      rw [List.pairwise_append] at hrec ⊢
      obtain ⟨hkk, hrr, hcross⟩ := hrec
      have hxz : ∀ z ∈ rest, Lit.Valid x z = false := by
        intro z hz
        cases hv : Lit.Valid x z
        · rfl
        · have := Lit.Valid_of_Subsumes hsub hv
          rw [hcross k0 hk0 z hz] at this
          exact absurd this (by simp)
      have hkx : ∀ k ∈ kept, Lit.Valid k x = false := by
        intro k hkm
        cases hv : Lit.Valid k x
        · rfl
        · have hxv := Lit.Valid_symm hv
          have := Lit.Valid_of_Subsumes hsub hxv
          rw [pairwise_no_valid hkk hk0 hkm] at this
          exact absurd this (by simp)
      refine ⟨hkk, ?_, ?_⟩
      · rw [List.pairwise_cons]
        exact ⟨hxz, hrr⟩
      · intro a ha b hb
        rcases List.mem_cons.mp hb with rfl | hb'
        · exact hkx a ha
        · exact hcross a ha b hb'
    | keep =>
      rw [hc] at h
      by_cases hf : rest.any (fun y => Lit.ProperlySubsumes x y)
      · rw [if_pos hf] at h
        have hrec := ih kept ks hk h
        obtain ⟨y0, hy0, hps⟩ := List.any_eq_true.mp hf
        have hsub : Lit.Subsumes x y0 = true := by
          rw [Lit.Subsumes, hps]
          simp
        rw [List.pairwise_append] at hrec ⊢
        obtain ⟨hkk, hrr, hcross⟩ := hrec
        have hxz : ∀ z ∈ rest, Lit.Valid x z = false := by
          intro z hz
          cases hv : Lit.Valid x z
          · rfl
          · have := Lit.Valid_of_Subsumes hsub hv
            rw [pairwise_no_valid hrr hy0 hz] at this
            exact absurd this (by simp)
        have hkx : ∀ k ∈ kept, Lit.Valid k x = false := by
          intro k hkm
          cases hv : Lit.Valid k x
          · rfl
          · have hxv := Lit.Valid_symm hv
            have hy0v := Lit.Valid_of_Subsumes hsub hxv
            have := Valid_symm_false (hcross k hkm y0 hy0)
            rw [hy0v] at this
            exact absurd this (by simp)
        refine ⟨hkk, ?_, ?_⟩
        · rw [List.pairwise_cons]
          exact ⟨hxz, hrr⟩
        · intro a ha b hb
          rcases List.mem_cons.mp hb with rfl | hb'
          · exact hkx a ha
          · exact hcross a ha b hb'
      · rw [if_neg hf] at h
        have hvx := checkKept_keep hc
        have hk' : (kept ++ [x]).Pairwise (fun a b => Lit.Valid a b = false) := by
          rw [List.pairwise_append]
          refine ⟨hk, by simp, ?_⟩
          intro a ha b hb
          rcases List.mem_singleton.mp hb with rfl
          exact Valid_symm_false (hvx a ha).1
        have hrec := ih (kept ++ [x]) ks hk' h
        rw [List.append_assoc, List.singleton_append] at hrec
        exact hrec

/-- If `Normalize` succeeds, the kept literals are pairwise free of joint
validity and of subsumption in either direction, given a kept prefix that
already satisfies this and properly subsumes nothing in the remaining
input. -/
theorem normalizeGo_normalized :
    ∀ (rest kept ks : List Lit),
      kept.Pairwise (fun a b => Lit.Valid a b = false ∧
        Lit.Subsumes a b = false ∧ Lit.Subsumes b a = false) →
      (∀ k ∈ kept, ∀ y ∈ rest, Lit.ProperlySubsumes k y = false) →
      normalizeGo kept rest = some ks →
      ks.Pairwise (fun a b => Lit.Valid a b = false ∧
        Lit.Subsumes a b = false ∧ Lit.Subsumes b a = false) := by
  intro rest
  induction rest with
  | nil =>
    intro kept ks hk _ h
    rw [normalizeGo] at h
    cases h
    exact hk
  | cons x rest ih =>
    intro kept ks hk hb h
    rw [normalizeGo] at h
    cases hc : checkKept x kept with
    | collapse =>
      rw [hc] at h
      exact absurd h (by simp)
    | skip =>
      rw [hc] at h
      exact ih kept ks hk
        (fun k hkm y hy => hb k hkm y (List.mem_cons_of_mem x hy)) h
    | keep =>
      rw [hc] at h
      by_cases hf : rest.any (fun y => Lit.ProperlySubsumes x y)
      · rw [if_pos hf] at h
        exact ih kept ks hk
          (fun k hkm y hy => hb k hkm y (List.mem_cons_of_mem x hy)) h
      · rw [if_neg hf] at h
        have hvx := checkKept_keep hc
        have hnops : ∀ y ∈ rest, Lit.ProperlySubsumes x y = false := by
          intro y hy
          cases hp : Lit.ProperlySubsumes x y
          · rfl
          · exact absurd (List.any_eq_true.mpr ⟨y, hy, by simp [hp]⟩) hf
        have hk' : (kept ++ [x]).Pairwise (fun a b => Lit.Valid a b = false ∧
            Lit.Subsumes a b = false ∧ Lit.Subsumes b a = false) := by
          rw [List.pairwise_append]
          refine ⟨hk, by simp, ?_⟩
          intro a ha b hb'
          rcases List.mem_singleton.mp hb' with rfl
          refine ⟨Valid_symm_false (hvx a ha).1, ?_, (hvx a ha).2⟩
          cases hsab : Lit.Subsumes a b
          · rfl
          · rw [Lit.Subsumes, Bool.or_eq_true, beq_iff_eq] at hsab
            rcases hsab with heq | hps
            · have h2 := (hvx a ha).2
              rw [heq, Lit.Subsumes_refl b] at h2
              exact absurd h2 (by simp)
            · rw [hb a ha b (List.mem_cons_self b rest)] at hps
              exact absurd hps (by simp)
        have hb' : ∀ k ∈ kept ++ [x], ∀ y ∈ rest,
            Lit.ProperlySubsumes k y = false := by
          intro k hkm y hy
          rcases List.mem_append.mp hkm with hkm' | hkm'
          · exact hb k hkm' y (List.mem_cons_of_mem x hy)
          · rcases List.mem_singleton.mp hkm' with rfl
            exact hnops y hy
        exact ih (kept ++ [x]) ks hk' hb' h

/-- C6: every clause built by the factory without the
guaranteed-normalized shortcut is normalized — no literal subsumes a
literal at another position and no two of its literals are jointly valid —
and if the input array contains a jointly valid pair, the built clause is
the unit clause holding only the null literal (the valid clause). -/
theorem clause_factory_new_normalized (as : List Lit) :
    (clauseNew as).Pairwise (fun a b => Lit.Valid a b = false ∧
      Lit.Subsumes a b = false ∧ Lit.Subsumes b a = false) ∧
    ((∃ a ∈ as, ∃ b ∈ as, Lit.Valid a b = true) → clauseNew as = [Lit.null]) := by
  constructor
  · rw [clauseNew]
    cases hn : normalizeGo [] as with
    | none => simp
    | some ks =>
      exact normalizeGo_normalized as [] ks (by simp)
        (fun k hkm => absurd hkm (List.not_mem_nil k)) hn
  · rintro ⟨a, ha, b, hb, hv⟩
    rw [clauseNew]
    cases hn : normalizeGo [] as with
    | none => rfl
    | some ks =>
      have hpair := normalizeGo_no_valid_pair as [] ks List.Pairwise.nil hn
      rw [List.nil_append] at hpair
      have hfalse := pairwise_no_valid hpair ha hb
      rw [hv] at hfalse
      exact absurd hfalse (by simp)

/-- Witness for C6: a normalized result on a mixed input, and the collapse
to the unit null clause on an input containing the jointly valid pair
`(2 ≠ 3)`, `(2 ≠ 5)`. -/
theorem clause_factory_new_normalized_witness :
    (clauseNew [Lit.mk true 2 3, Lit.mk true 2 3]).Pairwise
      (fun a b => Lit.Valid a b = false ∧
        Lit.Subsumes a b = false ∧ Lit.Subsumes b a = false) ∧
    clauseNew [Lit.mk false 2 3, Lit.mk false 2 5] = [Lit.null] :=
  ⟨(clause_factory_new_normalized _).1,
    (clause_factory_new_normalized _).2
      ⟨Lit.mk false 2 3, by decide, Lit.mk false 2 5, by decide, by decide⟩⟩

/-! ### `ground_clauses` (src/clause.c)

A `univ_clause_t` pairs the variable set of a universally quantified
clause with a callback that produces, for a complete variable assignment,
the ground clause (or NULL when the assignment falsifies the clause's
condition).  `generate_varmaps` enumerates all assignments of standard
names from `ns` to the variables and `setup_add`s every produced clause
into the `box_clauses` accumulator.  The trailing loop over the
action-sequence set `zs` (clause.c lines 47-56) only computes
`stdvec_sub(z, 0, k)` prefixes into a local that is dropped, and the
function returns the `setup` initialised by `setup_init()`: the grounded
`box_clauses` never reach the result. -/

/-- `varmap_add_replace`: functional update of a variable assignment. -/
def varmapAdd (vm : Nat → Option Nat) (v n : Nat) : Nat → Option Nat :=
  fun w => if w = v then some n else vm w

/-- `univ_clause_t`: the variable set and the grounding callback, over an
abstract ordered clause type `γ`. -/
structure UnivClauseT (γ : Type) where
  vars : List Nat
  univ_clause : (Nat → Option Nat) → Option γ

mutual

/-- `generate_varmaps` (clause.c lines 6-27), recursion over the remaining
variables: with no variable left the callback runs and a non-NULL clause
is `setup_add`ed; otherwise iterate the current variable over `ns`. -/
def generateVarmaps {γ : Type} [LinearOrder γ] [Inhabited γ]
    (uc : UnivClauseT γ) (ns : List Nat) :
    List Nat → (Nat → Option Nat) → CSet γ → CSet γ
  | [], vm, st =>
    match uc.univ_clause vm with
    | some c => (set_add st c).1
    | none => st
  | v :: vs, vm, st => generateVarmapsNs uc ns v vs ns vm st
termination_by l _ _ => (l.length, 1, 0)

/-- The inner loop of `generate_varmaps` over the standard names for one
variable. -/
def generateVarmapsNs {γ : Type} [LinearOrder γ] [Inhabited γ]
    (uc : UnivClauseT γ) (ns : List Nat) (v : Nat) (vs : List Nat) :
    List Nat → (Nat → Option Nat) → CSet γ → CSet γ
  | [], _, st => st
  | n :: rest, vm, st =>
    generateVarmapsNs uc ns v vs rest vm
      (generateVarmaps uc ns vs (varmapAdd vm v n) st)
termination_by l _ _ => (vs.length + 1, 0, l.length)

end

/-- `ground_clauses` (clause.c lines 29-58): ground every universal clause
into `box_clauses`, then loop over the action sequences building prefixes
that are discarded, and return the second, freshly initialised setup. -/
def ground_clauses {γ : Type} [LinearOrder γ] [Inhabited γ]
    (univ_clauses : List (UnivClauseT γ)) (zs : List (List Nat))
    (ns : List Nat) : CSet γ :=
  let box_clauses : CSet γ := univ_clauses.foldl
    (fun st uc => generateVarmaps uc ns uc.vars (fun _ => none) st) (set_init γ)
  let setup : CSet γ := set_init γ
  -- for i < size(box_clauses): for j < size(zs): for k < size(zs[j]):
  --   z_prefix := stdvec_sub(zs[j], 0, k)   (dropped)
  setup

/-- C1 (code bug): `ground_clauses` returns the empty setup for every
input — the grounded `box_clauses` are discarded and the loop over the
action-sequence prefixes adds nothing — so the returned setup never
contains the prefixed ground instances `z · C(σ)` and is empty even when a
boxed clause admits a satisfying assignment and the prefix set is
non-empty. -/
theorem ground_clauses_returns_empty_setup {γ : Type} [LinearOrder γ]
    [Inhabited γ] (univ_clauses : List (UnivClauseT γ))
    (zs : List (List Nat)) (ns : List Nat) :
    ground_clauses univ_clauses zs ns = set_init γ := rfl

end Limbo
